import Mathlib

/-!
Verification of the streaming protocol client and conversation state engine
of the sociology-masters chat frontend.

The definitions below are a shallow embedding of the JavaScript source:

* `APIService.streamMessage` (frontend/README.md, the embedded api.js):
  the SSE stream decoder with its carry-over buffer, the `data: ` line
  filter, the `[DONE]` sentinel, JSON-payload parsing (abstracted as a
  `parse` parameter, since `JSON.parse` is a platform builtin) and the
  `onChunk`/`onComplete` callbacks.
* `ChatPage` (frontend/pages.js): the per-persona conversation store
  (`conversations` object of arrays, `getCurrentMessages`,
  `addMessageToConversation`, `clearConversation`, `loadConversations`,
  `saveConversations`), the `isStreaming` in-flight flag and
  `sendMessage`.
* `SettingsPage` (frontend/pages.js): the clear-all-conversations handler,
  which removes the persisted `masterConversations` key.

JavaScript arrays are mutable references, which matters for the snapshot
claims, so the store is modelled with an explicit heap: `ChatState.heap`
maps array references (allocated in order by `nextRef`) to their current
contents and `refs` is the `conversations` object mapping persona ids to
array references.  `localStorage.masterConversations` is modelled as
`AppState.storage`, holding a value-level copy (`JSON.stringify` /
`JSON.parse` round-trip) of the conversation map.
-/

/-- A chat message, `{ role, content }` as pushed by
`addMessageToConversation` (pages.js). -/
structure Message where
  role : String
  content : String
deriving DecidableEq

/-- The value-level conversation map persisted under the
`masterConversations` localStorage key. -/
abbrev Store := List (String × List Message)

/-- The in-memory state of `ChatPage`: the heap of message arrays, the
`conversations` object (persona id to array reference) and the
`isStreaming` flag. -/
structure ChatState where
  heap : Nat → List Message
  nextRef : Nat
  refs : List (String × Nat)
  isStreaming : Bool

/-- The chat page together with the persisted copy of the conversations
(`localStorage.masterConversations`; `none` when the key is absent). -/
structure AppState where
  chat : ChatState
  storage : Option Store

/-- Property lookup on the `conversations` object. -/
def lookupRef : List (String × Nat) → String → Option Nat
  | [], _ => none
  | (q, i) :: rest, p => if q = p then some i else lookupRef rest p

/-- Property assignment on the `conversations` object: replaces the
binding for `p`, or adds it when absent. -/
def setRef : List (String × Nat) → String → Nat → List (String × Nat)
  | [], p, i => [(p, i)]
  | (q, j) :: rest, p, i => if q = p then (p, i) :: rest else (q, j) :: setRef rest p i

/-- `ChatPage.getCurrentMessages`: `this.conversations[master] || []`,
read as a value at the moment of the call. -/
def getCurrentMessages (s : ChatState) (master : String) : List Message :=
  match lookupRef s.refs master with
  | some i => s.heap i
  | none => []

/-- `JSON.stringify(this.conversations)`: the value-level copy written by
`ChatPage.saveConversations`. -/
def snapshotStore (s : ChatState) : Store :=
  s.refs.map (fun pr => (pr.1, s.heap pr.2))

/-- `ChatPage.addMessageToConversation(role, content)`: create the array
when the persona has none, push onto the existing array otherwise, then
`saveConversations()`. -/
def appendMsg (a : AppState) (master role content : String) : AppState :=
  let s := a.chat
  let s' : ChatState :=
    match lookupRef s.refs master with
    | some i =>
      { s with heap := fun j => if j = i then s.heap i ++ [⟨role, content⟩] else s.heap j }
    | none =>
      { s with
        heap := fun j => if j = s.nextRef then [⟨role, content⟩] else s.heap j,
        refs := s.refs ++ [(master, s.nextRef)],
        nextRef := s.nextRef + 1 }
  { chat := s', storage := some (snapshotStore s') }

/-- The confirmed branch of `ChatPage.clearConversation`:
`this.conversations[master] = []` (a fresh array) followed by
`saveConversations()`. -/
def clearConv (a : AppState) (master : String) : AppState :=
  let s := a.chat
  let s' : ChatState :=
    { s with
      heap := fun j => if j = s.nextRef then [] else s.heap j,
      refs := setRef s.refs master s.nextRef,
      nextRef := s.nextRef + 1 }
  { chat := s', storage := some (snapshotStore s') }

/-- The confirmed branch of the SettingsPage clear-all-conversations
handler: `localStorage.removeItem('masterConversations')`. -/
def clearAllSaved (a : AppState) : AppState :=
  { a with storage := none }

/-- Rebuild a `ChatState` from a persisted value (the `JSON.parse` in
`ChatPage.loadConversations`): each persona gets its own fresh array. -/
def chatFromStore (st : Store) : ChatState :=
  { heap := fun i => (st.getD i ("", [])).2,
    nextRef := st.length,
    refs := st.enum.map (fun pr => (pr.2.1, pr.1)),
    isStreaming := false }

/-- The tail of `ChatPage.loadConversations`: make sure the current
master has an entry. -/
def ensurePersona (s : ChatState) (master : String) : ChatState :=
  match lookupRef s.refs master with
  | some _ => s
  | none =>
    { s with
      heap := fun j => if j = s.nextRef then [] else s.heap j,
      refs := s.refs ++ [(master, s.nextRef)],
      nextRef := s.nextRef + 1 }

/-- `ChatPage.loadConversations` run by a fresh page: parse the saved
value (or start from `{}`), then ensure the current master has an
entry. -/
def freshChat (saved : Option Store) (master : String) : ChatState :=
  ensurePersona (match saved with | none => chatFromStore [] | some st => chatFromStore st) master

/-- A fresh application with empty localStorage (`ChatPage` constructor
with `currentMaster = 'tocqueville'`). -/
def initialApp : AppState :=
  { chat := freshChat none "tocqueville", storage := none }

/-- `json.result.delta` of a stream envelope. -/
structure Delta where
  role : Option String
  content : Option String
deriving DecidableEq

/-- `json.result` of a stream envelope. -/
structure ResultPart where
  delta : Option Delta
  finish_reason : Option String
deriving DecidableEq

/-- A parsed stream envelope; absent fields are `none`, matching the
optional-chaining reads `json.result?.delta?.content`. -/
structure Envelope where
  result : Option ResultPart
deriving DecidableEq

/-- JavaScript `String.prototype.trim` whitespace (the characters that
matter for SSE lines: space, tab, CR, LF, VT, FF, NBSP, BOM). -/
def isJsWs (c : Char) : Bool :=
  c = ' ' || c = '\t' || c = '\n' || c = '\r' || c = '\x0b' || c = '\x0c' ||
    c = '\u00A0' || c = '\uFEFF'

/-- `line.trim()` on the character list of a JavaScript string. -/
def trimL (l : List Char) : List Char :=
  ((l.dropWhile isJsWs).reverse.dropWhile isJsWs).reverse

/-- `input.value.trim()` at the `String` level. -/
def jsTrimS (s : String) : String :=
  String.mk (trimL s.data)

/-- `line.slice(6).trim()`: the event payload of a `data: ` line. -/
def payload (l : List Char) : String :=
  String.mk (trimL (l.drop 6))

/-- What one complete line contributes in `streamMessage`'s line loop:
nothing, the terminal `[DONE]` return, or one `onChunk` call. -/
inductive LineAction where
  | skip
  | finish
  | emit (content : String)
deriving DecidableEq

/-- The body of `streamMessage`'s `for (const line of lines)` loop for a
single line.  `parse` abstracts `JSON.parse` into the envelope shape: it
returns `none` exactly when `JSON.parse(data)` throws (the payload is
then dropped, only logged).  `onChunk` fires only when
`json.result?.delta?.content` is truthy, i.e. present and non-empty. -/
def processLine (parse : String → Option Envelope) (line : List Char) : LineAction :=
  if (trimL line != []) && ("data: ".data.isPrefixOf line) then
    if payload line = "[DONE]" then .finish
    else
      match parse (payload line) with
      | none => .skip
      | some json =>
        match json.result with
        | none => .skip
        | some r =>
          match r.delta with
          | none => .skip
          | some d =>
            match d.content with
            | none => .skip
            | some c => if c = "" then .skip else .emit c
  else .skip

/-- The line loop over the complete lines of one chunk, accumulating the
`onChunk` arguments; the `Bool` records the `[DONE]` early return, which
abandons the remaining lines. -/
def processLines (parse : String → Option Envelope) :
    List (List Char) → List String → List String × Bool
  | [], frags => (frags, false)
  | l :: ls, frags =>
    match processLine parse l with
    | .finish => (frags, true)
    | .emit c => processLines parse ls (frags ++ [c])
    | .skip => processLines parse ls frags

/-- `buffer.split('\n')` on character lists: one part per newline-free
segment, empty segments included, never empty as a list. -/
def splitNl : List Char → List (List Char)
  | [] => [[]]
  | c :: rest =>
    if c = '\n' then [] :: splitNl rest
    else
      match splitNl rest with
      | [] => [[c]]
      | l :: ls => (c :: l) :: ls

/-- All parts but the last: the complete lines handed to the line loop
after `buffer = lines.pop()`. -/
def dropLastL : List (List Char) → List (List Char)
  | [] => []
  | [_] => []
  | l :: ls => l :: dropLastL ls

/-- The last part: the unterminated remainder kept as the new carry-over
buffer by `lines.pop()`. -/
def lastD : List (List Char) → List Char
  | [] => []
  | [l] => l
  | _ :: ls => lastD ls

/-- The decoder state of `streamMessage`'s read loop: the carry-over
`buffer`, the `onChunk` arguments so far, and whether the `[DONE]`
return has happened. -/
structure DecState where
  buffer : List Char
  frags : List String
  fin : Bool
deriving DecidableEq

/-- One iteration of the read loop on a fresh text chunk:
`buffer += chunk; lines = buffer.split('\n'); buffer = lines.pop();`
then the line loop. -/
def stepChunk (parse : String → Option Envelope) (st : DecState) (chunk : List Char) : DecState :=
  ⟨lastD (splitNl (st.buffer ++ chunk)),
   (processLines parse (dropLastL (splitNl (st.buffer ++ chunk))) st.frags).1,
   (processLines parse (dropLastL (splitNl (st.buffer ++ chunk))) st.frags).2⟩

/-- The whole read loop over the finite list of chunks the source
delivers; after the `[DONE]` return no further chunk is read, and source
exhaustion simply ends the loop (`onComplete` is reached either way). -/
def runChunks (parse : String → Option Envelope) (st : DecState) : List (List Char) → DecState
  | [] => st
  | c :: rest => if st.fin then st else runChunks parse (stepChunk parse st c) rest

/-- The initial decoder state: `let buffer = ''`. -/
def initDec : DecState := ⟨[], [], false⟩

/-- Decode a complete stream, delivered as the given chunks. -/
def decode (parse : String → Option Envelope) (chunks : List (List Char)) : DecState :=
  runChunks parse initDec chunks

/-- Rebuild a raw text from newline-terminated lines (for stating
line-level facts about whole streams). -/
def unlines (ls : List (List Char)) : List Char :=
  ls.foldr (fun l acc => l ++ '\n' :: acc) []

/-- Flip the `isStreaming` flag of the chat page. -/
def setStreaming (a : AppState) (b : Bool) : AppState :=
  { a with chat := { a.chat with isStreaming := b } }

/-- What one `sendMessage` call produces besides the new state: the
silent early return (empty input or a turn already in flight), or a
completed turn with the committed assistant content. -/
inductive Outcome where
  | rejected
  | completed (content : String)
deriving DecidableEq

/-- `ChatPage.sendMessage` for a stream that the transport delivers as
`chunks`: trim the input, silently return when it is empty or a turn is
in flight, otherwise commit the user message, set `isStreaming`, run the
decoder accumulating `fullResponse` through `onChunk`, and on completion
commit the assistant message and clear `isStreaming`. -/
def sendMessage (a : AppState) (master input : String) (parse : String → Option Envelope)
    (chunks : List (List Char)) : AppState × Outcome :=
  if jsTrimS input = "" ∨ a.chat.isStreaming = true then (a, Outcome.rejected)
  else
    (setStreaming
      (appendMsg
        (setStreaming (appendMsg a master "user" (jsTrimS input)) true)
        master "assistant" (String.join (decode parse chunks).frags))
      false,
     Outcome.completed (String.join (decode parse chunks).frags))

/-- A `JSON.parse` oracle under which every payload is malformed. -/
def noParse : String → Option Envelope := fun _ => none

/-- A `JSON.parse` oracle that reads every payload as a delta envelope
whose content is the payload itself (used to exhibit emitted events). -/
def echoParse : String → Option Envelope := fun s =>
  some { result := some { delta := some { role := none, content := some s },
                          finish_reason := none } }

/-- The `JSON.parse` oracle of the spec's example scenario: payload `p1`
is a delta with empty content, `p2` carries `"A"`, `p3` carries `"B"`
with `finish_reason: "stop"`; everything else is malformed. -/
def scenarioParse : String → Option Envelope := fun s =>
  if s = "p1" then
    some { result := some { delta := some { role := some "assistant", content := some "" },
                            finish_reason := none } }
  else if s = "p2" then
    some { result := some { delta := some { role := none, content := some "A" },
                            finish_reason := none } }
  else if s = "p3" then
    some { result := some { delta := some { role := none, content := some "B" },
                            finish_reason := some "stop" } }
  else none

/-- The example scenario's wire stream: the three delta events followed
by the terminal sentinel, in SSE framing. -/
def scenarioChunks : List (List Char) :=
  ["data: p1\n\ndata: p2\n\ndata: p3\n\ndata: [DONE]\n\n".data]

/-- A chat page with a turn in flight. -/
def streamingApp : AppState :=
  setStreaming initialApp true

/-- The refs of a reachable chat state only mention allocated arrays. -/
def refsValid (s : ChatState) : Prop :=
  ∀ pr ∈ s.refs, pr.2 < s.nextRef

instance (s : ChatState) : Decidable (refsValid s) :=
  inferInstanceAs (Decidable (∀ pr ∈ s.refs, pr.2 < s.nextRef))

/-- `appendMsg` over a whole list of messages. -/
def appendMsgs (a : AppState) (master : String) (ms : List Message) : AppState :=
  ms.foldl (fun acc m => appendMsg acc master m.role m.content) a

/-- A character-at-a-time restatement of the read loop, used to prove
chunk-splitting invariance: a newline flushes the carry-over buffer
through the line handler, any other character extends the buffer, and
nothing happens once `[DONE]` has returned. -/
def charStep (parse : String → Option Envelope) (st : DecState) (c : Char) : DecState :=
  if st.fin then st
  else if c = '\n' then
    match processLine parse st.buffer with
    | .finish => ⟨[], st.frags, true⟩
    | .emit s => ⟨[], st.frags ++ [s], false⟩
    | .skip => ⟨[], st.frags, false⟩
  else ⟨st.buffer ++ [c], st.frags, st.fin⟩

/-- Observational agreement of two decoder states: same emitted events
and same termination; buffers agree (and stay newline-free) as long as
the stream is still live. -/
def obsR (s1 s2 : DecState) : Prop :=
  s1.frags = s2.frags ∧ s1.fin = s2.fin ∧
    (s1.fin = false → s1.buffer = s2.buffer ∧ '\n' ∉ s1.buffer)

theorem splitNl_ne_nil (l : List Char) : splitNl l ≠ [] := by
  induction l with
  | nil => simp [splitNl]
  | cons c rest ih =>
    simp only [splitNl]
    split
    · simp
    · split <;> simp_all

theorem splitNl_append_noNl (β : List Char) :
    ∀ ys m ms, '\n' ∉ β → splitNl ys = m :: ms →
      splitNl (β ++ ys) = (β ++ m) :: ms := by
  induction β with
  | nil => intro ys m ms _ h; simpa using h
  | cons c β' ih =>
    intro ys m ms hmem h
    have hc : ¬ (c = '\n') := fun hh => hmem (by simp [hh])
    have hβ' : '\n' ∉ β' := fun hh => hmem (by simp [hh])
    have h2 := ih ys m ms hβ' h
    simp only [List.cons_append, splitNl, if_neg hc, List.append_eq, h2]

theorem splitNl_noNl (β : List Char) (h : '\n' ∉ β) : splitNl β = [β] := by
  have := splitNl_append_noNl β [] [] [] h (by simp [splitNl])
  simpa using this

theorem trimL_ne_nil {l : List Char} {c : Char} (hc : c ∈ l) (hw : isJsWs c = false) :
    trimL l ≠ [] := by
  intro h
  have h1 : (l.dropWhile isJsWs).reverse.dropWhile isJsWs = [] := by
    have := congrArg List.reverse h
    simpa [trimL] using this
  have h2 : ∀ x ∈ (l.dropWhile isJsWs).reverse, isJsWs x :=
    List.dropWhile_eq_nil_iff.mp h1
  have h3 : c ∈ l.dropWhile isJsWs := by
    have hsplit := List.takeWhile_append_dropWhile (p := isJsWs) (l := l)
    rcases List.mem_append.mp (hsplit ▸ hc) with h4 | h4
    · have := List.mem_takeWhile_imp h4
      simp [hw] at this
    · exact h4
  have := h2 c (List.mem_reverse.mpr h3)
  simp [hw] at this

theorem lookupRef_append_of_none {rs : List (String × Nat)} {p : String}
    (h : lookupRef rs p = none) (more : List (String × Nat)) :
    lookupRef (rs ++ more) p = lookupRef more p := by
  induction rs with
  | nil => rfl
  | cons pr rest ih =>
    obtain ⟨q, i⟩ := pr
    by_cases hq : q = p
    · simp [lookupRef, hq] at h
    · simp only [lookupRef, List.cons_append, if_neg hq] at h ⊢
      exact ih h

theorem lookupRef_setRef_self (rs : List (String × Nat)) (p : String) (i : Nat) :
    lookupRef (setRef rs p i) p = some i := by
  induction rs with
  | nil => simp [setRef, lookupRef]
  | cons pr rest ih =>
    obtain ⟨q, j⟩ := pr
    by_cases hq : q = p
    · simp [setRef, lookupRef, hq]
    · simp [setRef, lookupRef, hq, ih]

theorem lookupRef_setRef_other {p q : String} (hne : q ≠ p) (rs : List (String × Nat))
    (i : Nat) : lookupRef (setRef rs p i) q = lookupRef rs q := by
  induction rs with
  | nil => simp [setRef, lookupRef, Ne.symm hne]
  | cons pr rest ih =>
    obtain ⟨r, j⟩ := pr
    by_cases hr : r = p
    · subst hr
      simp [setRef, lookupRef, Ne.symm hne]
    · simp [setRef, lookupRef, hr, ih]

theorem lookupRef_some_mem {rs : List (String × Nat)} {p : String} {r : Nat}
    (h : lookupRef rs p = some r) : ∃ q, (q, r) ∈ rs := by
  induction rs with
  | nil => simp [lookupRef] at h
  | cons pr rest ih =>
    obtain ⟨q, j⟩ := pr
    by_cases hq : q = p
    · refine ⟨q, ?_⟩
      simp [lookupRef, hq] at h
      simp [h]
    · simp only [lookupRef, if_neg hq] at h
      obtain ⟨q', hq'⟩ := ih h
      exact ⟨q', List.mem_cons_of_mem _ hq'⟩

theorem appendMsg_get_self (a : AppState) (master role content : String) :
    getCurrentMessages (appendMsg a master role content).chat master =
      getCurrentMessages a.chat master ++ [⟨role, content⟩] := by
  unfold appendMsg getCurrentMessages
  cases hl : lookupRef a.chat.refs master with
  | some i => simp [hl]
  | none => simp [hl, lookupRef_append_of_none hl, lookupRef]

theorem appendMsg_isStreaming (a : AppState) (master role content : String) :
    (appendMsg a master role content).chat.isStreaming = a.chat.isStreaming := by
  unfold appendMsg
  cases hl : lookupRef a.chat.refs master <;> simp [hl]

theorem clearConv_get_self (a : AppState) (master : String) :
    getCurrentMessages (clearConv a master).chat master = [] := by
  simp [clearConv, getCurrentMessages, lookupRef_setRef_self]

theorem clearConv_get_other {a : AppState} {master q : String} (hne : q ≠ master)
    (hv : refsValid a.chat) :
    getCurrentMessages (clearConv a master).chat q = getCurrentMessages a.chat q := by
  unfold clearConv getCurrentMessages
  simp only [lookupRef_setRef_other hne]
  cases hl : lookupRef a.chat.refs q with
  | none => rfl
  | some r =>
    obtain ⟨q', hmem⟩ := lookupRef_some_mem hl
    have hlt : r < a.chat.nextRef := hv _ hmem
    simp [Nat.ne_of_lt hlt]

theorem foldl_charStep_fin (parse : String → Option Envelope) :
    ∀ (l : List Char) (st : DecState), st.fin = true →
      List.foldl (charStep parse) st l = st := by
  intro l
  induction l with
  | nil => intro st _; rfl
  | cons c rest ih =>
    intro st h
    have hcs : charStep parse st c = st := by simp [charStep, h]
    rw [List.foldl_cons, hcs]
    exact ih st h

theorem stepChunk_newline (parse : String → Option Envelope) (st : DecState)
    (rest : List Char) (hnl : '\n' ∉ st.buffer) :
    stepChunk parse st ('\n' :: rest) =
      match processLine parse st.buffer with
      | .finish => ⟨lastD (splitNl rest), st.frags, true⟩
      | .emit c => stepChunk parse ⟨[], st.frags ++ [c], false⟩ rest
      | .skip => stepChunk parse ⟨[], st.frags, false⟩ rest := by
  obtain ⟨s, ss, hsp⟩ : ∃ s ss, splitNl rest = s :: ss := by
    rcases h : splitNl rest with _ | ⟨s, ss⟩
    · exact absurd h (splitNl_ne_nil rest)
    · exact ⟨s, ss, rfl⟩
  have hsplit : splitNl (st.buffer ++ '\n' :: rest) = st.buffer :: s :: ss := by
    rw [splitNl_append_noNl st.buffer ('\n' :: rest) [] (splitNl rest) hnl (by simp [splitNl])]
    simp [hsp]
  unfold stepChunk
  rw [hsplit, hsp]
  cases hpl : processLine parse st.buffer with
  | finish =>
    show (⟨lastD (st.buffer :: s :: ss),
      (processLines parse (st.buffer :: dropLastL (s :: ss)) st.frags).1,
      (processLines parse (st.buffer :: dropLastL (s :: ss)) st.frags).2⟩ : DecState) = _
    simp only [processLines, hpl, lastD]
  | emit c =>
    show (⟨lastD (st.buffer :: s :: ss),
      (processLines parse (st.buffer :: dropLastL (s :: ss)) st.frags).1,
      (processLines parse (st.buffer :: dropLastL (s :: ss)) st.frags).2⟩ : DecState) = _
    simp only [processLines, hpl, lastD, stepChunk, List.nil_append, hsp]
  | skip =>
    show (⟨lastD (st.buffer :: s :: ss),
      (processLines parse (st.buffer :: dropLastL (s :: ss)) st.frags).1,
      (processLines parse (st.buffer :: dropLastL (s :: ss)) st.frags).2⟩ : DecState) = _
    simp only [processLines, hpl, lastD, stepChunk, List.nil_append, hsp]

theorem stepChunk_cons_buffer (parse : String → Option Envelope) (β : List Char)
    (F : List String) (b : Bool) (x : Char) (rest : List Char) :
    stepChunk parse ⟨β, F, b⟩ (x :: rest) = stepChunk parse ⟨β ++ [x], F, b⟩ rest := by
  simp only [stepChunk]
  rw [List.append_cons]

theorem stepChunk_sim (parse : String → Option Envelope) :
    ∀ (chunk : List Char) (st : DecState), st.fin = false → '\n' ∉ st.buffer →
      obsR (stepChunk parse st chunk) (List.foldl (charStep parse) st chunk) := by
  intro chunk
  induction chunk with
  | nil =>
    intro st hfin hnl
    have hβ : splitNl st.buffer = [st.buffer] := splitNl_noNl _ hnl
    have h1 : stepChunk parse st [] = st := by
      obtain ⟨β, F, fin⟩ := st
      simp only [] at hfin hnl
      subst hfin
      simp [stepChunk, hβ, dropLastL, lastD, processLines]
    rw [h1]
    exact ⟨rfl, rfl, fun _ => ⟨rfl, hnl⟩⟩
  | cons x rest ih =>
    intro st hfin hnl
    by_cases hx : x = '\n'
    · subst hx
      rw [stepChunk_newline parse st rest hnl]
      have hf0 : List.foldl (charStep parse) st ('\n' :: rest) =
          List.foldl (charStep parse) (charStep parse st '\n') rest := rfl
      cases hpl : processLine parse st.buffer with
      | finish =>
        have hcs : charStep parse st '\n' = ⟨[], st.frags, true⟩ := by
          simp [charStep, hfin, hpl]
        rw [hf0, hcs, foldl_charStep_fin parse rest _ rfl]
        exact ⟨rfl, rfl, fun h => by simp at h⟩
      | emit c =>
        have hcs : charStep parse st '\n' = ⟨[], st.frags ++ [c], false⟩ := by
          simp [charStep, hfin, hpl]
        rw [hf0, hcs]
        exact ih ⟨[], st.frags ++ [c], false⟩ rfl (by simp)
      | skip =>
        have hcs : charStep parse st '\n' = ⟨[], st.frags, false⟩ := by
          simp [charStep, hfin, hpl]
        rw [hf0, hcs]
        exact ih ⟨[], st.frags, false⟩ rfl (by simp)
    · obtain ⟨β, F, fin⟩ := st
      simp only [] at hfin hnl
      subst hfin
      rw [stepChunk_cons_buffer]
      have hcs : charStep parse ⟨β, F, false⟩ x = ⟨β ++ [x], F, false⟩ := by
        simp [charStep, hx]
      have hf0 : List.foldl (charStep parse) ⟨β, F, false⟩ (x :: rest) =
          List.foldl (charStep parse) ⟨β ++ [x], F, false⟩ rest := by
        rw [List.foldl_cons, hcs]
      rw [hf0]
      exact ih ⟨β ++ [x], F, false⟩ rfl (by simp [hnl, Ne.symm hx])

theorem runChunks_sim (parse : String → Option Envelope) :
    ∀ (cs : List (List Char)) (s1 s2 : DecState), obsR s1 s2 →
      obsR (runChunks parse s1 cs) (List.foldl (charStep parse) s2 cs.flatten) := by
  intro cs
  induction cs with
  | nil => intro s1 s2 h; simpa [runChunks, List.flatten] using h
  | cons c rest ih =>
    intro s1 s2 h
    by_cases hfin : s1.fin = true
    · have h2 : s2.fin = true := h.2.1 ▸ hfin
      have e1 : runChunks parse s1 (c :: rest) = s1 := by simp [runChunks, hfin]
      have e2 : List.foldl (charStep parse) s2 (c :: rest).flatten = s2 :=
        foldl_charStep_fin parse _ s2 h2
      rw [e1, e2]; exact h
    · have hfin' : s1.fin = false := by simpa using hfin
      obtain ⟨hfr, hfi, hbuf⟩ := h
      obtain ⟨hbeq, hnl⟩ := hbuf hfin'
      have hs12 : s1 = s2 := by
        obtain ⟨b1, f1, x1⟩ := s1; obtain ⟨b2, f2, x2⟩ := s2
        simp only [] at hfr hfi hbeq
        simp [hfr, hfi, hbeq]
      subst hs12
      have e1 : runChunks parse s1 (c :: rest) = runChunks parse (stepChunk parse s1 c) rest := by
        simp [runChunks, hfin']
      have e2 : (c :: rest).flatten = c ++ rest.flatten := rfl
      rw [e1, e2, List.foldl_append]
      exact ih _ _ (stepChunk_sim parse c s1 hfin' hnl)

theorem decode_join (parse : String → Option Envelope) (cs : List (List Char)) :
    obsR (decode parse cs) (List.foldl (charStep parse) initDec cs.flatten) :=
  runChunks_sim parse cs initDec initDec ⟨rfl, rfl, fun _ => ⟨rfl, by simp [initDec]⟩⟩

theorem foldl_charStep_no_newline (parse : String → Option Envelope) :
    ∀ (t : List Char) (st : DecState), '\n' ∉ t →
      (List.foldl (charStep parse) st t).frags = st.frags ∧
      (List.foldl (charStep parse) st t).fin = st.fin := by
  intro t
  induction t with
  | nil => intro st _; exact ⟨rfl, rfl⟩
  | cons x rest ih =>
    intro st hnl
    have hx : ¬ (x = '\n') := fun h => hnl (by simp [h])
    have hrest : '\n' ∉ rest := fun h => hnl (by simp [h])
    by_cases hfin : st.fin = true
    · rw [foldl_charStep_fin parse _ st hfin]
      exact ⟨rfl, rfl⟩
    · have hfin' : st.fin = false := by simpa using hfin
      have hcs : charStep parse st x = ⟨st.buffer ++ [x], st.frags, st.fin⟩ := by
        simp [charStep, hfin', hx]
      rw [List.foldl_cons, hcs]
      exact ih ⟨st.buffer ++ [x], st.frags, st.fin⟩ hrest

theorem processLine_not_data (parse : String → Option Envelope) (l : List Char)
    (h : "data: ".data.isPrefixOf l = false) : processLine parse l = .skip := by
  simp [processLine, h]

theorem processLine_done (parse : String → Option Envelope) (l : List Char)
    (hpre : "data: ".data.isPrefixOf l = true) (hp : payload l = "[DONE]") :
    processLine parse l = .finish := by
  have hd : 'd' ∈ l := by
    obtain ⟨t, ht⟩ := List.isPrefixOf_iff_prefix.mp hpre
    rw [← ht]
    exact List.mem_append_left _ (by decide)
  have htrim : trimL l ≠ [] := trimL_ne_nil hd (by decide)
  have hb : (trimL l != []) = true := by simpa using htrim
  simp [processLine, hb, hpre, hp]

theorem processLine_malformed (parse : String → Option Envelope) (l : List Char)
    (h1 : parse (payload l) = none) (h2 : payload l ≠ "[DONE]") :
    processLine parse l = .skip := by
  unfold processLine
  rw [if_neg h2, h1]
  split <;> rfl

theorem processLines_stop (parse : String → Option Envelope) :
    ∀ (pre post : List (List Char)) (F : List String),
      (processLines parse pre F).2 = true →
      processLines parse (pre ++ post) F = processLines parse pre F := by
  intro pre
  induction pre with
  | nil => intro post F h; simp [processLines] at h
  | cons l ls ih =>
    intro post F h
    cases hpl : processLine parse l with
    | finish => simp [processLines, hpl]
    | emit c =>
      simp only [processLines, hpl, List.cons_append] at h ⊢
      exact ih post (F ++ [c]) h
    | skip =>
      simp only [processLines, hpl, List.cons_append] at h ⊢
      exact ih post F h

theorem processLines_drop_malformed (parse : String → Option Envelope) :
    ∀ (pre post : List (List Char)) (F : List String) (bad : List Char),
      parse (payload bad) = none → payload bad ≠ "[DONE]" →
      processLines parse (pre ++ bad :: post) F = processLines parse (pre ++ post) F := by
  intro pre
  induction pre with
  | nil =>
    intro post F bad h1 h2
    simp only [List.nil_append, processLines, processLine_malformed parse bad h1 h2]
  | cons l ls ih =>
    intro post F bad h1 h2
    cases hpl : processLine parse l with
    | finish => simp [processLines, hpl]
    | emit c =>
      simp only [List.cons_append, processLines, hpl]
      exact ih post (F ++ [c]) bad h1 h2
    | skip =>
      simp only [List.cons_append, processLines, hpl]
      exact ih post F bad h1 h2

theorem splitNl_unlines : ∀ (ls : List (List Char)), (∀ l ∈ ls, '\n' ∉ l) →
    splitNl (unlines ls) = ls ++ [[]] := by
  intro ls
  induction ls with
  | nil => intro _; simp [unlines, splitNl]
  | cons l ls' ih =>
    intro h
    have hl : '\n' ∉ l := h l (by simp)
    have hls' : ∀ x ∈ ls', '\n' ∉ x := fun x hx => h x (by simp [hx])
    have h3 : splitNl ('\n' :: unlines ls') = [] :: (ls' ++ [[]]) := by
      simp [splitNl, ih hls']
    have h4 := splitNl_append_noNl l ('\n' :: unlines ls') [] (ls' ++ [[]]) hl h3
    simpa [unlines] using h4

theorem dropLastL_concat : ∀ (ls : List (List Char)) (x : List Char),
    dropLastL (ls ++ [x]) = ls := by
  intro ls x
  induction ls with
  | nil => rfl
  | cons l ls' ih =>
    rcases e : ls' ++ [x] with _ | ⟨y, ys⟩
    · exact absurd e (by simp)
    · show dropLastL (l :: (ls' ++ [x])) = l :: ls'
      rw [e]
      show l :: dropLastL (y :: ys) = l :: ls'
      rw [← e, ih]

theorem lastD_concat : ∀ (ls : List (List Char)) (x : List Char),
    lastD (ls ++ [x]) = x := by
  intro ls x
  induction ls with
  | nil => rfl
  | cons l ls' ih =>
    rcases e : ls' ++ [x] with _ | ⟨y, ys⟩
    · exact absurd e (by simp)
    · show lastD (l :: (ls' ++ [x])) = x
      rw [e]
      show lastD (y :: ys) = x
      rw [← e, ih]

theorem decode_unlines (parse : String → Option Envelope) (ls : List (List Char))
    (h : ∀ l ∈ ls, '\n' ∉ l) :
    decode parse [unlines ls] =
      ⟨[], (processLines parse ls []).1, (processLines parse ls []).2⟩ := by
  have h0 : decode parse [unlines ls] = stepChunk parse initDec (unlines ls) := by
    simp [decode, runChunks, initDec]
  rw [h0]
  unfold stepChunk
  simp [initDec, splitNl_unlines ls h, dropLastL_concat, lastD_concat]

theorem sendMessage_ok (a : AppState) (master input : String)
    (parse : String → Option Envelope) (chunks : List (List Char))
    (hs : a.chat.isStreaming = false) (hc : jsTrimS input ≠ "") :
    (sendMessage a master input parse chunks).2 =
        Outcome.completed (String.join (decode parse chunks).frags) ∧
      getCurrentMessages (sendMessage a master input parse chunks).1.chat master =
        getCurrentMessages a.chat master ++
          [⟨"user", jsTrimS input⟩,
           ⟨"assistant", String.join (decode parse chunks).frags⟩] ∧
      (sendMessage a master input parse chunks).1.chat.isStreaming = false := by
  have hguard : ¬ (jsTrimS input = "" ∨ a.chat.isStreaming = true) := by
    rintro (h | h)
    · exact hc h
    · rw [hs] at h; exact Bool.false_ne_true h
  unfold sendMessage
  rw [if_neg hguard]
  refine ⟨rfl, ?_, rfl⟩
  show getCurrentMessages (appendMsg (setStreaming (appendMsg a master "user" (jsTrimS input)) true)
    master "assistant" (String.join (decode parse chunks).frags)).chat master = _
  rw [appendMsg_get_self]
  show getCurrentMessages (appendMsg a master "user" (jsTrimS input)).chat master ++ _ = _
  rw [appendMsg_get_self]
  simp

theorem appendMsgs_get_self (master : String) :
    ∀ (ms : List Message) (a : AppState),
      getCurrentMessages (appendMsgs a master ms).chat master =
        getCurrentMessages a.chat master ++ ms := by
  intro ms
  induction ms with
  | nil => intro a; simp [appendMsgs]
  | cons m ms' ih =>
    intro a
    show getCurrentMessages
      (appendMsgs (appendMsg a master m.role m.content) master ms').chat master = _
    rw [ih, appendMsg_get_self]
    cases m
    simp

/-- Claim C1: for a submitted user message with persona `tocqueville`
whose stream delivers `delta{content:""}`, `delta{content:"A"}`,
`delta{content:"B", finish_reason:"stop"}` and the `[DONE]` sentinel,
the committed assistant content is exactly `"AB"` and that persona's
stored history grows by exactly the user message followed by the
assistant message (length + 2). -/
theorem claim_C1 (a : AppState) (input : String) (h : List Message)
    (hs : a.chat.isStreaming = false) (hc : jsTrimS input ≠ "")
    (hh : getCurrentMessages a.chat "tocqueville" = h) :
    (sendMessage a "tocqueville" input scenarioParse scenarioChunks).2 =
        Outcome.completed "AB" ∧
      getCurrentMessages
          (sendMessage a "tocqueville" input scenarioParse scenarioChunks).1.chat
          "tocqueville" =
        h ++ [⟨"user", jsTrimS input⟩, ⟨"assistant", "AB"⟩] ∧
      (getCurrentMessages
          (sendMessage a "tocqueville" input scenarioParse scenarioChunks).1.chat
          "tocqueville").length = h.length + 2 := by
  have hAB : String.join (decode scenarioParse scenarioChunks).frags = "AB" := by decide
  obtain ⟨h1, h2, h3⟩ :=
    sendMessage_ok a "tocqueville" input scenarioParse scenarioChunks hs hc
  rw [hAB] at h1 h2
  rw [hh] at h2
  refine ⟨h1, h2, ?_⟩
  rw [h2]
  simp

theorem claim_C1_witness :
    (sendMessage initialApp "tocqueville" "Q" scenarioParse scenarioChunks).2 =
        Outcome.completed "AB" ∧
      getCurrentMessages
          (sendMessage initialApp "tocqueville" "Q" scenarioParse scenarioChunks).1.chat
          "tocqueville" =
        [] ++ [⟨"user", jsTrimS "Q"⟩, ⟨"assistant", "AB"⟩] ∧
      (getCurrentMessages
          (sendMessage initialApp "tocqueville" "Q" scenarioParse scenarioChunks).1.chat
          "tocqueville").length = List.length ([] : List Message) + 2 :=
  claim_C1 initialApp "Q" [] rfl (by decide) (by decide)

/-- Claim C2: a complete line produces an application event only when it
starts with the literal `"data: "` (anything else, blank separator lines
included, produces nothing); a `data: ` line whose payload trims to
`"[DONE]"` signals completion, and after completion no later line of the
chunk nor any later chunk produces an event. -/
theorem claim_C2 :
    (∀ (parse : String → Option Envelope) (l : List Char),
        "data: ".data.isPrefixOf l = false → processLine parse l = .skip) ∧
      (∀ (parse : String → Option Envelope) (l : List Char),
        "data: ".data.isPrefixOf l = true → payload l = "[DONE]" →
          processLine parse l = .finish) ∧
      (∀ (parse : String → Option Envelope) (pre post : List (List Char)) (F : List String),
        (processLines parse pre F).2 = true →
          processLines parse (pre ++ post) F = processLines parse pre F) ∧
      (∀ (parse : String → Option Envelope) (st : DecState) (cs : List (List Char)),
        st.fin = true → runChunks parse st cs = st) := by
  refine ⟨processLine_not_data, processLine_done, processLines_stop, ?_⟩
  intro parse st cs h
  cases cs with
  | nil => rfl
  | cons c rest => simp [runChunks, h]

theorem claim_C2_witness :
    processLine noParse "hello".data = .skip ∧
      processLine noParse "data:  [DONE] ".data = .finish ∧
      processLines noParse (["data: [DONE]".data] ++ ["data: x".data]) [] =
        processLines noParse ["data: [DONE]".data] [] ∧
      runChunks noParse ⟨[], ["A"], true⟩ ["data: x\n".data] = ⟨[], ["A"], true⟩ :=
  ⟨claim_C2.1 noParse _ (by decide),
   claim_C2.2.1 noParse _ (by decide) (by decide),
   claim_C2.2.2.1 noParse _ _ [] (by decide),
   claim_C2.2.2.2 noParse _ _ rfl⟩

/-- Claim C3: appending a sequence of messages to a persona with empty
history and then reading it back returns exactly the appended sequence
in order; clearing a persona empties exactly that persona's history and
leaves every other persona unchanged; reading a never-written persona
returns the empty sequence. -/
theorem claim_C3 (a : AppState) (p : String) (ms : List Message) :
    (lookupRef a.chat.refs p = none → getCurrentMessages a.chat p = []) ∧
      (getCurrentMessages a.chat p = [] →
        getCurrentMessages (appendMsgs a p ms).chat p = ms) ∧
      getCurrentMessages (clearConv a p).chat p = [] ∧
      (refsValid a.chat → ∀ q, q ≠ p →
        getCurrentMessages (clearConv a p).chat q = getCurrentMessages a.chat q) := by
  refine ⟨?_, ?_, clearConv_get_self a p, ?_⟩
  · intro h; simp [getCurrentMessages, h]
  · intro h
    rw [appendMsgs_get_self p ms a, h]
    simp
  · intro hv q hq
    exact clearConv_get_other hq hv

theorem claim_C3_witness :
    getCurrentMessages (appendMsgs initialApp "alice" [⟨"user", "x"⟩]).chat "alice" =
        [⟨"user", "x"⟩] ∧
      getCurrentMessages (clearConv initialApp "alice").chat "tocqueville" =
        getCurrentMessages initialApp.chat "tocqueville" :=
  ⟨(claim_C3 initialApp "alice" [⟨"user", "x"⟩]).2.1 (by decide),
   (claim_C3 initialApp "alice" [⟨"user", "x"⟩]).2.2.2 (by decide) "tocqueville" (by decide)⟩

/-- Claim C4: a second submit for a persona whose turn is in flight
(`isStreaming`) is rejected synchronously — the early return of
`sendMessage` — and the state is left literally unchanged: history,
accumulated text and the first turn's state are untouched. -/
theorem claim_C4 (a : AppState) (master input : String)
    (parse : String → Option Envelope) (chunks : List (List Char))
    (h : a.chat.isStreaming = true) :
    sendMessage a master input parse chunks = (a, Outcome.rejected) := by
  unfold sendMessage
  rw [if_pos (Or.inr h)]

theorem claim_C4_witness :
    sendMessage streamingApp "tocqueville" "Q" noParse [] =
      (streamingApp, Outcome.rejected) :=
  claim_C4 streamingApp "tocqueville" "Q" noParse [] rfl

/-- Claim C5: a payload that fails to parse as JSON is dropped and the
stream continues: removing such a line from the line sequence does not
change the line loop's result at all, and at the decoder level the
emitted fragments of a stream with the malformed line equal those of the
stream without it. -/
theorem claim_C5 (parse : String → Option Envelope) (pre post : List (List Char))
    (F : List String) (bad : List Char)
    (h1 : parse (payload bad) = none) (h2 : payload bad ≠ "[DONE]") :
    processLines parse (pre ++ bad :: post) F = processLines parse (pre ++ post) F ∧
      ((∀ l ∈ pre ++ bad :: post, '\n' ∉ l) →
        (decode parse [unlines (pre ++ bad :: post)]).frags =
          (decode parse [unlines (pre ++ post)]).frags) := by
  refine ⟨processLines_drop_malformed parse pre post F bad h1 h2, ?_⟩
  intro hnl
  have hnl2 : ∀ l ∈ pre ++ post, '\n' ∉ l := by
    intro l hl
    apply hnl
    rcases List.mem_append.mp hl with h | h
    · exact List.mem_append_left _ h
    · exact List.mem_append_right _ (List.mem_cons_of_mem _ h)
  rw [decode_unlines parse _ hnl, decode_unlines parse _ hnl2]
  show (processLines parse (pre ++ bad :: post) []).1 =
    (processLines parse (pre ++ post) []).1
  rw [processLines_drop_malformed parse pre post [] bad h1 h2]

theorem claim_C5_witness :
    processLines scenarioParse
        (["data: p2".data] ++ "data: junk".data :: ["data: p3".data]) [] =
      processLines scenarioParse (["data: p2".data] ++ ["data: p3".data]) [] ∧
      (decode scenarioParse
          [unlines (["data: p2".data] ++ "data: junk".data :: ["data: p3".data])]).frags =
        (decode scenarioParse [unlines (["data: p2".data] ++ ["data: p3".data])]).frags := by
  have h := claim_C5 scenarioParse ["data: p2".data] ["data: p3".data] []
    "data: junk".data (by decide) (by decide)
  exact ⟨h.1, h.2 (by decide)⟩

/-- Claim C6: the decoder emits the same ordered event sequence (and the
same termination signal) for every way of chunking a fixed text, since
only the concatenation of the chunks matters. -/
theorem claim_C6 (parse : String → Option Envelope) (cs1 cs2 : List (List Char))
    (h : cs1.flatten = cs2.flatten) :
    (decode parse cs1).frags = (decode parse cs2).frags ∧
      (decode parse cs1).fin = (decode parse cs2).fin := by
  have h1 := decode_join parse cs1
  have h2 := decode_join parse cs2
  rw [h] at h1
  exact ⟨h1.1.trans h2.1.symm, h1.2.1.trans h2.2.1.symm⟩

theorem claim_C6_witness :
    (decode echoParse ["data: A\nda".data, "ta: B\n".data]).frags =
        (decode echoParse ["data: A\ndata: B\n".data]).frags ∧
      (decode echoParse ["data: A\nda".data, "ta: B\n".data]).fin =
        (decode echoParse ["data: A\ndata: B\n".data]).fin :=
  claim_C6 echoParse _ _ (by decide)

/-- Claim C7: when the source closes without a `[DONE]` sentinel the turn
still completes normally: the accumulated text (possibly empty) is
committed as the assistant message after the user message, the outcome is
`completed` (no error), and the in-flight flag is cleared. -/
theorem claim_C7 (parse : String → Option Envelope) (cs : List (List Char))
    (a : AppState) (master input : String)
    (hfin : (decode parse cs).fin = false)
    (hs : a.chat.isStreaming = false) (hc : jsTrimS input ≠ "") :
    (sendMessage a master input parse cs).2 =
        Outcome.completed (String.join (decode parse cs).frags) ∧
      getCurrentMessages (sendMessage a master input parse cs).1.chat master =
        getCurrentMessages a.chat master ++
          [⟨"user", jsTrimS input⟩,
           ⟨"assistant", String.join (decode parse cs).frags⟩] ∧
      (sendMessage a master input parse cs).1.chat.isStreaming = false :=
  sendMessage_ok a master input parse cs hs hc

theorem claim_C7_witness :
    (sendMessage initialApp "tocqueville" "Q" noParse []).2 =
        Outcome.completed (String.join (decode noParse []).frags) ∧
      getCurrentMessages (sendMessage initialApp "tocqueville" "Q" noParse []).1.chat
          "tocqueville" =
        getCurrentMessages initialApp.chat "tocqueville" ++
          [⟨"user", jsTrimS "Q"⟩,
           ⟨"assistant", String.join (decode noParse []).frags⟩] ∧
      (sendMessage initialApp "tocqueville" "Q" noParse []).1.chat.isStreaming = false :=
  claim_C7 noParse [] initialApp "tocqueville" "Q" rfl rfl (by decide)

/-- Claim C8 counterexample: after the clear-all handler runs, the live
chat page still reads the old history — because the handler only removes
the persisted localStorage key, not the in-memory `conversations`. -/
theorem claim_C8_counterexample :
    getCurrentMessages
        (clearAllSaved (appendMsg initialApp "tocqueville" "user" "hi")).chat
        "tocqueville" = [⟨"user", "hi"⟩] ∧
      ([⟨"user", "hi"⟩] : List Message) ≠ [] :=
  ⟨by decide, by decide⟩

/-- Claim C8 amended: the clear-all handler removes the persisted copy of
every persona's history — a freshly loaded chat page then reads the
empty sequence for every persona — but the live page's in-memory
histories are unchanged. -/
theorem claim_C8_amended (a : AppState) :
    (clearAllSaved a).storage = none ∧
      (∀ p, getCurrentMessages (freshChat (clearAllSaved a).storage "tocqueville") p = []) ∧
      (∀ p, getCurrentMessages (clearAllSaved a).chat p = getCurrentMessages a.chat p) := by
  refine ⟨rfl, ?_, fun p => rfl⟩
  intro p
  show getCurrentMessages (freshChat none "tocqueville") p = []
  by_cases hp : "tocqueville" = p
  · simp [freshChat, ensurePersona, chatFromStore, getCurrentMessages, lookupRef, hp]
  · simp [freshChat, ensurePersona, chatFromStore, getCurrentMessages, lookupRef, hp]

/-- Claim C9 counterexample: `getCurrentMessages` hands out the store's
live array (reference 0 here), and a subsequent append mutates it — so
the returned sequence is not an immutable snapshot. -/
theorem claim_C9_counterexample :
    lookupRef (appendMsg initialApp "tocqueville" "user" "hi").chat.refs "tocqueville" =
        some 0 ∧
      (appendMsg initialApp "tocqueville" "user" "hi").chat.heap 0 = [⟨"user", "hi"⟩] ∧
      (appendMsg (appendMsg initialApp "tocqueville" "user" "hi")
          "tocqueville" "assistant" "yo").chat.heap 0 ≠ [⟨"user", "hi"⟩] :=
  ⟨by decide, by decide, by decide⟩

/-- Claim C9 amended: the sequence returned by `getCurrentMessages` is
the store's live array: a later `append` to the same persona mutates it
in place (it gains the appended message), while `clear` rebinds the
persona to a fresh array and leaves the old array unchanged. -/
theorem claim_C9_amended (a : AppState) (p : String) (r : Nat) (role content : String)
    (h : lookupRef a.chat.refs p = some r) (hv : refsValid a.chat) :
    (appendMsg a p role content).chat.heap r = a.chat.heap r ++ [⟨role, content⟩] ∧
      (clearConv a p).chat.heap r = a.chat.heap r := by
  constructor
  · unfold appendMsg
    simp [h]
  · obtain ⟨q, hmem⟩ := lookupRef_some_mem h
    have hlt : r < a.chat.nextRef := hv _ hmem
    unfold clearConv
    simp [Nat.ne_of_lt hlt]

theorem claim_C9_amended_witness :
    (appendMsg (appendMsg initialApp "tocqueville" "user" "hi")
          "tocqueville" "assistant" "yo").chat.heap 0 =
        (appendMsg initialApp "tocqueville" "user" "hi").chat.heap 0 ++
          [⟨"assistant", "yo"⟩] ∧
      (clearConv (appendMsg initialApp "tocqueville" "user" "hi") "tocqueville").chat.heap 0 =
        (appendMsg initialApp "tocqueville" "user" "hi").chat.heap 0 :=
  claim_C9_amended (appendMsg initialApp "tocqueville" "user" "hi") "tocqueville" 0
    "assistant" "yo" (by decide) (by decide)

/-- Claim C10: a trailing unterminated line left in the carry-over buffer
when the source closes is discarded without being parsed or emitted: it
contributes no event and no fragment, and the whole turn is committed
exactly as without it. -/
theorem claim_C10 (parse : String → Option Envelope) (a : AppState) (master input : String)
    (cs : List (List Char)) (t : List Char) (hne : t ≠ []) (hnl : '\n' ∉ t) :
    (decode parse (cs ++ [t])).frags = (decode parse cs).frags ∧
      (decode parse (cs ++ [t])).fin = (decode parse cs).fin ∧
      sendMessage a master input parse (cs ++ [t]) = sendMessage a master input parse cs := by
  have h1 := decode_join parse (cs ++ [t])
  have h2 := decode_join parse cs
  have hflat : (cs ++ [t]).flatten = cs.flatten ++ t := by simp
  rw [hflat, List.foldl_append] at h1
  have h3 := foldl_charStep_no_newline parse t
    (List.foldl (charStep parse) initDec cs.flatten) hnl
  have hfr : (decode parse (cs ++ [t])).frags = (decode parse cs).frags := by
    rw [h1.1, h3.1, h2.1]
  have hfi : (decode parse (cs ++ [t])).fin = (decode parse cs).fin := by
    rw [h1.2.1, h3.2, h2.2.1]
  refine ⟨hfr, hfi, ?_⟩
  unfold sendMessage
  rw [hfr]

theorem claim_C10_witness :
    (decode echoParse (["data: A\n".data] ++ ["data: B".data])).frags =
        (decode echoParse ["data: A\n".data]).frags ∧
      (decode echoParse (["data: A\n".data] ++ ["data: B".data])).fin =
        (decode echoParse ["data: A\n".data]).fin ∧
      sendMessage initialApp "tocqueville" "Q" echoParse
          (["data: A\n".data] ++ ["data: B".data]) =
        sendMessage initialApp "tocqueville" "Q" echoParse ["data: A\n".data] :=
  claim_C10 echoParse initialApp "tocqueville" "Q" ["data: A\n".data] "data: B".data
    (by decide) (by decide)
